import Mathlib

/-!
Verification of the PageRank estimator program (`pagerank.py`).

The program's corpus is a Python dict mapping a page name to the set of
pages it links to.  We embed it as an association list
`List (String × List String)` whose key order models the dict's
insertion/iteration order; a Python `set` of links is embedded as a
duplicate-free list.  Probability values are embedded as exact rationals.
Python runtime errors (KeyError from indexing, ValueError / IndexError
from the `random` helpers) are embedded with `Except PyErr`.
The two sources of randomness (`random.choice` for the initial page and
`random.random()` inside `random.choices`) are passed in explicitly: an
initial index and a stream of uniform draws in `[0,1)`.
-/

namespace PageRank

/-- Python runtime errors raised by the embedded functions. -/
inductive PyErr where
  | keyError
  | valueError
  | indexError
  deriving DecidableEq

/-- Association-list lookup on the first matching key; models Python dict
indexing `m[k]` (with `none` playing the role of a raised KeyError). -/
def alLookup {α : Type} : List (String × α) → String → Option α
  | [], _ => none
  | p :: t, k => if p.1 = k then some p.2 else alLookup t k

/-- Models the Python statement `dist[k] += w` on a dict embedded as an
association list: `none` when the key is absent (KeyError). -/
def alAdd : List (String × ℚ) → String → ℚ → Option (List (String × ℚ))
  | [], _, _ => none
  | p :: t, k, w =>
    if p.1 = k then some ((p.1, p.2 + w) :: t)
    else
      match alAdd t k w with
      | none => none
      | some t2 => some (p :: t2)

/-- Models the Python statement `dist[k] = v`: replaces the value of an
existing key in place, appends the pair when the key is new (dict
insertion order semantics). -/
def alSet : List (String × ℚ) → String → ℚ → List (String × ℚ)
  | [], k, v => [(k, v)]
  | p :: t, k, v => if p.1 = k then (p.1, v) :: t else p :: alSet t k v

/-- The loop `for linked_page in links: distribution[linked_page] += damping_factor / len(links)`
from `transition_model`, with `w` the constant increment. -/
def addLinks (dist : List (String × ℚ)) (links : List String) (w : ℚ) :
    Except PyErr (List (String × ℚ)) :=
  match links with
  | [] => Except.ok dist
  | l :: t =>
    match alAdd dist l w with
    | none => Except.error PyErr.keyError
    | some d2 => addLinks d2 t w

/-- Embedding of `transition_model(corpus, page, damping_factor)` from
`pagerank.py`.  `corpus[page]` is the first possible failure (KeyError);
then either every page gets `1/n` (dangling page) or every page gets the
base mass `(1 - damping_factor)/n` and every linked page additionally
gets `damping_factor/len(links)`. -/
def transition_model (corpus : List (String × List String)) (page : String) (d : ℚ) :
    Except PyErr (List (String × ℚ)) :=
  match alLookup corpus page with
  | none => Except.error PyErr.keyError
  | some links =>
    if links.isEmpty then
      Except.ok (corpus.map (fun pr => (pr.1, 1 / (corpus.length : ℚ))))
    else
      addLinks (corpus.map (fun pr => (pr.1, (1 - d) / (corpus.length : ℚ))))
        links (d / (links.length : ℚ))

/-- Cumulative sums, modelling `itertools.accumulate(weights)` as used by
CPython's `random.choices`. -/
def pyAccumulate (acc : ℚ) : List ℚ → List ℚ
  | [] => []
  | w :: t => (acc + w) :: pyAccumulate (acc + w) t

/-- The last element of a list, if any; models `cum_weights[-1]` (an
IndexError on an empty list). -/
def lastQ : List ℚ → Option ℚ
  | [] => none
  | [x] => some x
  | _ :: x :: t => lastQ (x :: t)

/-- Embedding of CPython's `random.choices(population, weights, k=1)[0]`
for one draw, with `r ∈ [0,1)` standing for the `random.random()` call:
it builds the cumulative weights, rejects a length mismatch or a
non-positive total (ValueError), and returns
`population[bisect_right(cum_weights, r * total, 0, len(population) - 1)]`.
On the (sorted) cumulative lists produced from the non-negative weight
lists this program passes, `bisect_right` over the clipped prefix equals
counting the prefix entries that are `≤ r * total`. -/
def pyChoices1 (population : List String) (weights : List ℚ) (r : ℚ) :
    Except PyErr String :=
  let cum := pyAccumulate 0 weights
  if cum.length ≠ population.length then Except.error PyErr.valueError
  else
    match lastQ cum with
    | none => Except.error PyErr.indexError
    | some total =>
      if total ≤ 0 then Except.error PyErr.valueError
      else
        match population.get? ((cum.take (population.length - 1)).countP
            (fun c => decide (c ≤ r * total))) with
        | some p => Except.ok p
        | none => Except.error PyErr.indexError

/-- One iteration of the `for i in range(1, n)` loop of `sample_pagerank`:
compute the transition model for the current page, fold it into the
running average with weight `1/i`, and draw the next page with
`random.choices(list(distribution.keys()), list(distribution.values()), k=1)`
— note the weights are the running-average values `distribution.values()`. -/
def sampleStep (corpus : List (String × List String)) (d : ℚ) (rands : ℕ → ℚ)
    (st : List (String × ℚ) × String) (i : ℕ) :
    Except PyErr (List (String × ℚ) × String) :=
  match transition_model corpus st.2 d with
  | Except.error e => Except.error e
  | Except.ok cur =>
    let dist2 := st.1.map (fun pr =>
      (pr.1, (((i : ℚ) - 1) * pr.2 + (alLookup cur pr.1).getD 0) / (i : ℚ)))
    match pyChoices1 (dist2.map Prod.fst) (dist2.map Prod.snd) (rands i) with
    | Except.error e => Except.error e
    | Except.ok page2 => Except.ok (dist2, page2)

/-- The whole `for i in range(1, n)` loop of `sample_pagerank`,
short-circuiting on the first raised error. -/
def sampleLoop (corpus : List (String × List String)) (d : ℚ) (rands : ℕ → ℚ) :
    List ℕ → List (String × ℚ) × String → Except PyErr (List (String × ℚ) × String)
  | [], st => Except.ok st
  | i :: t, st =>
    match sampleStep corpus d rands st i with
    | Except.error e => Except.error e
    | Except.ok st2 => sampleLoop corpus d rands t st2

/-- Embedding of `sample_pagerank(corpus, damping_factor, n)` from
`pagerank.py`.  `init` models the index drawn by
`random.choice(list(corpus.keys()))` (IndexError on an empty corpus) and
`rands i` models the uniform draw consumed by `random.choices` at loop
index `i`. -/
def sample_pagerank (corpus : List (String × List String)) (d : ℚ) (n : ℤ)
    (init : ℕ) (rands : ℕ → ℚ) : Except PyErr (List (String × ℚ)) :=
  let dist0 := corpus.map (fun pr => (pr.1, (0 : ℚ)))
  match (corpus.map Prod.fst).get? (init % corpus.length) with
  | none => Except.error PyErr.indexError
  | some page0 =>
    match sampleLoop corpus d rands (List.range' 1 (n - 1).toNat) (dist0, page0) with
    | Except.error e => Except.error e
    | Except.ok st => Except.ok st.1

/-- Modelled from the claim {spec section 4.2 step 3}: identical to
`sampleStep` except that the next page is drawn by weighted random choice
whose weights are the just-computed transition-model distribution
(`current_distribution`), not the running average.  This definition
exists only to be compared against the code's `sampleStep`. -/
def sampleStepClaim (corpus : List (String × List String)) (d : ℚ) (rands : ℕ → ℚ)
    (st : List (String × ℚ) × String) (i : ℕ) :
    Except PyErr (List (String × ℚ) × String) :=
  match transition_model corpus st.2 d with
  | Except.error e => Except.error e
  | Except.ok cur =>
    let dist2 := st.1.map (fun pr =>
      (pr.1, (((i : ℚ) - 1) * pr.2 + (alLookup cur pr.1).getD 0) / (i : ℚ)))
    match pyChoices1 (dist2.map Prod.fst) (cur.map Prod.snd) (rands i) with
    | Except.error e => Except.error e
    | Except.ok page2 => Except.ok (dist2, page2)

/-- The loop of the claim-side variant; same recursion as `sampleLoop`. -/
def sampleLoopClaim (corpus : List (String × List String)) (d : ℚ) (rands : ℕ → ℚ) :
    List ℕ → List (String × ℚ) × String → Except PyErr (List (String × ℚ) × String)
  | [], st => Except.ok st
  | i :: t, st =>
    match sampleStepClaim corpus d rands st i with
    | Except.error e => Except.error e
    | Except.ok st2 => sampleLoopClaim corpus d rands t st2

/-- The Sampling Estimator as the claim describes it: `sample_pagerank`
with the next page drawn over the transition-model distribution. -/
def sample_pagerank_claimdraw (corpus : List (String × List String)) (d : ℚ) (n : ℤ)
    (init : ℕ) (rands : ℕ → ℚ) : Except PyErr (List (String × ℚ)) :=
  let dist0 := corpus.map (fun pr => (pr.1, (0 : ℚ)))
  match (corpus.map Prod.fst).get? (init % corpus.length) with
  | none => Except.error PyErr.indexError
  | some page0 =>
    match sampleLoopClaim corpus d rands (List.range' 1 (n - 1).toNat) (dist0, page0) with
    | Except.error e => Except.error e
    | Except.ok st => Except.ok st.1

/-- The convergence threshold `threshold = 0.0005` of `iterate_pagerank`. -/
def threshold : ℚ := 5 / 10000

/-- The inner accumulation of `iterate_pagerank`:
`sigma = 0; for page in corpus: if key in corpus[page]: sigma += ranks[page] / len(corpus[page])`. -/
def sigmaFold (corpus : List (String × List String)) (ranks : List (String × ℚ))
    (key : String) : ℚ :=
  corpus.foldl
    (fun s pr =>
      if key ∈ pr.2 then s + (alLookup ranks pr.1).getD 0 / (pr.2.length : ℚ) else s)
    0

/-- One round of the `while True` loop of `iterate_pagerank`: visit every
corpus key in iteration order, compute
`new = (1 - damping_factor)/N + damping_factor * sigma`, count the key as
converged when `|ranks[key] - new| < threshold`, and update `ranks[key]`
in place so that later keys of the same round read the updated value. -/
def iterRoundGo (corpus : List (String × List String)) (d N : ℚ) :
    List (String × List String) → List (String × ℚ) → ℕ → List (String × ℚ) × ℕ
  | [], ranks, count => (ranks, count)
  | pr :: rest, ranks, count =>
    let new := (1 - d) / N + d * sigmaFold corpus ranks pr.1
    let count2 := if |(alLookup ranks pr.1).getD 0 - new| < threshold then count + 1 else count
    iterRoundGo corpus d N rest (alSet ranks pr.1 new) count2

/-- One full round of `iterate_pagerank`, returning the updated ranks and
the number of keys whose change stayed below the threshold. -/
def iterRound (corpus : List (String × List String)) (d : ℚ)
    (ranks : List (String × ℚ)) : List (String × ℚ) × ℕ :=
  iterRoundGo corpus d (corpus.length : ℚ) corpus ranks 0

/-- The initial ranks of `iterate_pagerank`: every page starts at `1/N`. -/
def initRanks (corpus : List (String × List String)) : List (String × ℚ) :=
  corpus.map (fun pr => (pr.1, 1 / (corpus.length : ℚ)))

/-- The `while True` loop of `iterate_pagerank`: stop as soon as a round
reports `count == N`; `fuel` bounds the number of rounds the embedding is
willing to run (the Python loop has no cap, so the theorems quantify over
`fuel`). -/
def iterLoop (corpus : List (String × List String)) (d : ℚ) :
    ℕ → List (String × ℚ) → Option (List (String × ℚ))
  | 0, _ => none
  | Nat.succ fuel, ranks =>
    let p := iterRound corpus d ranks
    if p.2 = corpus.length then some p.1 else iterLoop corpus d fuel p.1

/-- Embedding of `iterate_pagerank(corpus, damping_factor)` from
`pagerank.py`, up to the round bound `fuel`. -/
def iterate_pagerank (corpus : List (String × List String)) (d : ℚ) (fuel : ℕ) :
    Option (List (String × ℚ)) :=
  iterLoop corpus d fuel (initRanks corpus)

/-- The per-key absolute changes `|ranks[key] - new|` of one round, in key
order, replaying exactly the in-place state evolution of `iterRoundGo`. -/
def roundDeltasGo (corpus : List (String × List String)) (d N : ℚ) :
    List (String × List String) → List (String × ℚ) → List ℚ
  | [], _ => []
  | pr :: rest, ranks =>
    let new := (1 - d) / N + d * sigmaFold corpus ranks pr.1
    |(alLookup ranks pr.1).getD 0 - new| :: roundDeltasGo corpus d N rest (alSet ranks pr.1 new)

/-- The per-key absolute rank changes of one full round. -/
def roundDeltas (corpus : List (String × List String)) (d : ℚ)
    (ranks : List (String × ℚ)) : List ℚ :=
  roundDeltasGo corpus d (corpus.length : ℚ) corpus ranks

/-- The ranks as they stand after `k` full rounds of `iterate_pagerank`
starting from `r0`. -/
def roundState (corpus : List (String × List String)) (d : ℚ)
    (r0 : List (String × ℚ)) : ℕ → List (String × ℚ)
  | 0 => r0
  | Nat.succ k => (iterRound corpus d (roundState corpus d r0 k)).1

/-- Modelled from the spec {section 4.3 step 2}: the update formula
`new = (1-damping)/N + damping * Σ_over_page_linking_to_key(rank[page] / outdegree(page))`,
the sum ranging over every page `p` with `key ∈ links(p)` (so pages with
zero outdegree contribute nothing). -/
def specNewRank (corpus : List (String × List String)) (d : ℚ)
    (ranks : List (String × ℚ)) (key : String) : ℚ :=
  (1 - d) / (corpus.length : ℚ) +
    d * ((corpus.filter (fun pr => key ∈ pr.2)).map
      (fun pr => (alLookup ranks pr.1).getD 0 / (pr.2.length : ℚ))).sum

/-- Modelled from the spec {section 4.3 step 2}: one round visits every
page key in iteration order and sets its rank in place to `specNewRank`
of the current (partially updated) ranks, so later pages read
already-updated earlier ranks. -/
def specRoundGo (corpus : List (String × List String)) (d : ℚ) :
    List (String × List String) → List (String × ℚ) → List (String × ℚ)
  | [], ranks => ranks
  | pr :: rest, ranks =>
    specRoundGo corpus d rest (alSet ranks pr.1 (specNewRank corpus d ranks pr.1))

/-- One full round as the spec describes it. -/
def specRound (corpus : List (String × List String)) (d : ℚ)
    (ranks : List (String × ℚ)) : List (String × ℚ) :=
  specRoundGo corpus d corpus ranks

/-- Well-formedness of a corpus, as guaranteed by `crawl`: page names are
distinct (dict keys), each link set is duplicate-free (a Python set), and
links only point at pages of the corpus. -/
abbrev WFCorpus (corpus : List (String × List String)) : Prop :=
  (corpus.map Prod.fst).Nodup ∧
    ∀ pr ∈ corpus, pr.2.Nodup ∧ ∀ l ∈ pr.2, l ∈ corpus.map Prod.fst

/-! ### Association-list lemmas -/

theorem alLookup_eq_none {α : Type} (l : List (String × α)) (k : String) :
    alLookup l k = none ↔ k ∉ l.map Prod.fst := by
  induction l with
  | nil => simp [alLookup]
  | cons p t ih =>
    by_cases h : p.1 = k
    · subst h; simp [alLookup]
    · simp only [alLookup, if_neg h, List.map_cons, List.mem_cons, ih]
      constructor
      · rintro hn (rfl | hm)
        · exact h rfl
        · exact hn hm
      · exact fun hn hm => hn (Or.inr hm)

theorem alLookup_pair_mem {α : Type} {l : List (String × α)} {k : String} {v : α}
    (h : alLookup l k = some v) : (k, v) ∈ l := by
  induction l with
  | nil => simp [alLookup] at h
  | cons p t ih =>
    rcases p with ⟨a, b⟩
    by_cases hk : a = k
    · subst hk
      simp only [alLookup] at h
      simp at h
      subst h
      exact List.mem_cons_self _ _
    · simp only [alLookup, if_neg hk] at h
      exact List.mem_cons_of_mem _ (ih h)

theorem mem_keys_alLookup {α : Type} {l : List (String × α)} {k : String}
    (h : k ∈ l.map Prod.fst) : ∃ v, alLookup l k = some v := by
  induction l with
  | nil => simp at h
  | cons p t ih =>
    by_cases hk : p.1 = k
    · exact ⟨p.2, by simp [alLookup, hk]⟩
    · simp only [List.map_cons, List.mem_cons] at h
      rcases h with h | h
      · exact absurd h.symm hk
      · rcases ih h with ⟨v, hv⟩
        exact ⟨v, by simp [alLookup, hk, hv]⟩

theorem map_fst_map_pair {α β : Type} (l : List (String × α)) (g : String × α → β) :
    (l.map (fun pr => (pr.1, g pr))).map Prod.fst = l.map Prod.fst := by
  induction l with
  | nil => rfl
  | cons p t ih => simp [ih]

theorem alLookup_map_const {α β : Type} (l : List (String × α)) (c : β) {k : String}
    (h : k ∈ l.map Prod.fst) :
    alLookup (l.map (fun pr => (pr.1, c))) k = some c := by
  induction l with
  | nil => simp at h
  | cons p t ih =>
    by_cases hk : p.1 = k
    · simp [alLookup, hk]
    · simp only [List.map_cons, List.mem_cons] at h
      rcases h with h | h
      · exact absurd h.symm hk
      · simp [alLookup, hk, ih h]

theorem sum_snd_map_const {α : Type} (l : List (String × α)) (c : ℚ) :
    (((l.map (fun pr => (pr.1, c))).map Prod.snd).sum) = (l.length : ℚ) * c := by
  induction l with
  | nil => simp
  | cons p t ih =>
    simp only [List.map_cons, List.sum_cons, ih, List.length_cons]
    push_cast
    ring

theorem alAdd_ok {l : List (String × ℚ)} {k : String} (w : ℚ)
    (h : k ∈ l.map Prod.fst) :
    ∃ l2, alAdd l k w = some l2 ∧
      l2.map Prod.fst = l.map Prod.fst ∧
      (l2.map Prod.snd).sum = (l.map Prod.snd).sum + w ∧
      alLookup l2 k = (alLookup l k).map (· + w) ∧
      ∀ q, q ≠ k → alLookup l2 q = alLookup l q := by
  induction l with
  | nil => simp at h
  | cons p t ih =>
    by_cases hk : p.1 = k
    · refine ⟨(p.1, p.2 + w) :: t, ?_, ?_, ?_, ?_, ?_⟩
      · simp [alAdd, hk]
      · rfl
      · simp only [List.map_cons, List.sum_cons]; ring
      · simp [alLookup, hk]
      · intro q hq
        have : p.1 ≠ q := by rw [hk]; exact fun hh => hq hh.symm
        simp [alLookup, this]
    · simp only [List.map_cons, List.mem_cons] at h
      rcases h with h | h
      · exact absurd h.symm hk
      · rcases ih h with ⟨t2, ht2, hkeys, hsum, hlook, hother⟩
        refine ⟨p :: t2, ?_, ?_, ?_, ?_, ?_⟩
        · simp [alAdd, hk, ht2]
        · simp [hkeys]
        · simp only [List.map_cons, List.sum_cons, hsum]; ring
        · simp [alLookup, hk, hlook]
        · intro q hq
          by_cases hpq : p.1 = q
          · simp [alLookup, hpq]
          · simp [alLookup, hpq, hother q hq]

theorem addLinks_ok {dist : List (String × ℚ)} {links : List String} (w : ℚ)
    (hsub : ∀ l ∈ links, l ∈ dist.map Prod.fst) (hnd : links.Nodup) :
    ∃ d2, addLinks dist links w = Except.ok d2 ∧
      d2.map Prod.fst = dist.map Prod.fst ∧
      (d2.map Prod.snd).sum = (dist.map Prod.snd).sum + (links.length : ℚ) * w ∧
      ∀ q, alLookup d2 q =
        if q ∈ links then (alLookup dist q).map (· + w) else alLookup dist q := by
  induction links generalizing dist with
  | nil =>
    refine ⟨dist, rfl, rfl, by simp, ?_⟩
    intro q; simp
  | cons l t ih =>
    have hl : l ∈ dist.map Prod.fst := hsub l (List.mem_cons_self _ _)
    rcases alAdd_ok w hl with ⟨d1, hd1, hkeys1, hsum1, hlook1, hother1⟩
    have hsub1 : ∀ x ∈ t, x ∈ d1.map Prod.fst := by
      intro x hx; rw [hkeys1]; exact hsub x (List.mem_cons_of_mem _ hx)
    rcases ih hsub1 hnd.of_cons with ⟨d2, hd2, hkeys2, hsum2, hlook2⟩
    have hlnotint : l ∉ t := (List.nodup_cons.mp hnd).1
    refine ⟨d2, ?_, ?_, ?_, ?_⟩
    · simp [addLinks, hd1, hd2]
    · rw [hkeys2, hkeys1]
    · rw [hsum2, hsum1]
      simp only [List.length_cons]
      push_cast
      ring
    · intro q
      by_cases hq : q = l
      · subst hq
        have h1 : q ∈ q :: t := List.mem_cons_self _ _
        rw [if_pos h1, hlook2, if_neg hlnotint, hlook1]
      · have h2 : (q ∈ l :: t) ↔ (q ∈ t) := by
          simp [List.mem_cons, hq]
        rw [hlook2, hother1 q hq]
        by_cases hqt : q ∈ t
        · rw [if_pos hqt, if_pos (h2.mpr hqt)]
        · rw [if_neg hqt, if_neg (fun hh => hqt (h2.mp hh))]

/-! ### Characterization of `transition_model` -/

theorem transition_model_ok {corpus : List (String × List String)} {page : String}
    {L : List String} (d : ℚ) (hwf : WFCorpus corpus)
    (hL : alLookup corpus page = some L) :
    ∃ dist, transition_model corpus page d = Except.ok dist ∧
      dist.map Prod.fst = corpus.map Prod.fst ∧
      (∀ q ∈ corpus.map Prod.fst, alLookup dist q =
        some (if L = [] then 1 / (corpus.length : ℚ)
          else (1 - d) / (corpus.length : ℚ) + (if q ∈ L then d / (L.length : ℚ) else 0))) ∧
      (corpus ≠ [] → (dist.map Prod.snd).sum = 1) := by
  have hLmem : (page, L) ∈ corpus := alLookup_pair_mem hL
  have hLprops := hwf.2 (page, L) hLmem
  by_cases hLe : L = []
  · subst hLe
    refine ⟨corpus.map (fun pr => (pr.1, 1 / (corpus.length : ℚ))), ?_, ?_, ?_, ?_⟩
    · simp [transition_model, hL]
    · exact map_fst_map_pair _ _
    · intro q hq
      rw [alLookup_map_const _ _ hq]
      simp
    · intro hne
      rw [sum_snd_map_const]
      have : (corpus.length : ℚ) ≠ 0 := by
        have h0 : corpus.length ≠ 0 := fun hh => hne (List.length_eq_zero.mp hh)
        exact_mod_cast h0
      field_simp
  · have hsub : ∀ l ∈ L, l ∈ (corpus.map (fun pr =>
        (pr.1, (1 - d) / (corpus.length : ℚ)))).map Prod.fst := by
      intro l hl
      rw [map_fst_map_pair]
      exact hLprops.2 l hl
    rcases addLinks_ok (d / (L.length : ℚ)) hsub hLprops.1 with
      ⟨d2, hd2, hkeys, hsum, hlook⟩
    have hiseF : L.isEmpty = false := by
      cases L with
      | nil => exact absurd rfl hLe
      | cons a t => rfl
    refine ⟨d2, ?_, ?_, ?_, ?_⟩
    · simp [transition_model, hL, hiseF, hd2]
    · rw [hkeys, map_fst_map_pair]
    · intro q hq
      rw [hlook q, if_neg hLe]
      by_cases hqL : q ∈ L
      · rw [if_pos hqL, alLookup_map_const _ _ hq, if_pos hqL]
        rfl
      · rw [if_neg hqL, alLookup_map_const _ _ hq, if_neg hqL]
        simp
    · intro hne
      rw [hsum, sum_snd_map_const]
      have hN : (corpus.length : ℚ) ≠ 0 := by
        have h0 : corpus.length ≠ 0 := fun hh => hne (List.length_eq_zero.mp hh)
        exact_mod_cast h0
      have hLn : (L.length : ℚ) ≠ 0 := by
        have h0 : L.length ≠ 0 := fun hh => hLe (List.length_eq_zero.mp hh)
        exact_mod_cast h0
      field_simp

/-! ### Claims about the Transition Model (C2, C6) -/

/-- C2: for every well-formed non-empty graph, every page of the graph
(whose link list is `L`) and every damping in `[0,1]`, `transition_model`
returns the pointwise distribution: when `L` is non-empty, a page not in
`L` gets `(1-damping)/N` and a page in `L` gets
`(1-damping)/N + damping/|L|`; when `L` is empty, every page gets `1/N`. -/
theorem claim_C2_transition_pointwise
    (corpus : List (String × List String)) (page : String) (d : ℚ) (L : List String)
    (hwf : WFCorpus corpus) (hne : corpus ≠ []) (hd0 : 0 ≤ d) (hd1 : d ≤ 1)
    (hL : alLookup corpus page = some L) :
    ∃ dist, transition_model corpus page d = Except.ok dist ∧
      ∀ q ∈ corpus.map Prod.fst, alLookup dist q =
        some (if L = [] then 1 / (corpus.length : ℚ)
          else (1 - d) / (corpus.length : ℚ) +
            (if q ∈ L then d / (L.length : ℚ) else 0)) := by
  rcases transition_model_ok d hwf hL with ⟨dist, h1, _, h3, _⟩
  exact ⟨dist, h1, h3⟩

/-- Witness for C2 on the two-page graph `1 ↔ 2` at damping `17/20`. -/
theorem claim_C2_witness :
    ∃ dist, transition_model [("1", ["2"]), ("2", ["1"])] "1" (17/20) = Except.ok dist ∧
      ∀ q ∈ ([("1", ["2"]), ("2", ["1"])] : List (String × List String)).map Prod.fst,
        alLookup dist q =
          some (if (["2"] : List String) = [] then
              1 / (([("1", ["2"]), ("2", ["1"])] : List (String × List String)).length : ℚ)
            else (1 - 17/20) /
                (([("1", ["2"]), ("2", ["1"])] : List (String × List String)).length : ℚ) +
              (if q ∈ (["2"] : List String) then (17/20 : ℚ) / ((["2"] : List String).length : ℚ)
                else 0)) :=
  claim_C2_transition_pointwise [("1", ["2"]), ("2", ["1"])] "1" (17/20) ["2"]
    (by decide) (by decide) (by norm_num) (by norm_num) rfl

/-- C6: for every well-formed non-empty graph, every page of the graph and
every damping in `[0,1]`, the distribution returned by `transition_model`
has exactly one entry per graph page (the key list is exactly the
corpus's key list) and its values sum to exactly 1 in rational
arithmetic (hence within `1e-9`). -/
theorem claim_C6_transition_sums_to_one
    (corpus : List (String × List String)) (page : String) (d : ℚ)
    (hwf : WFCorpus corpus) (hne : corpus ≠ []) (hpage : page ∈ corpus.map Prod.fst)
    (hd0 : 0 ≤ d) (hd1 : d ≤ 1) :
    ∃ dist, transition_model corpus page d = Except.ok dist ∧
      dist.map Prod.fst = corpus.map Prod.fst ∧
      (dist.map Prod.snd).sum = 1 := by
  rcases mem_keys_alLookup hpage with ⟨L, hL⟩
  rcases transition_model_ok d hwf hL with ⟨dist, h1, h2, _, h4⟩
  exact ⟨dist, h1, h2, h4 hne⟩

/-- Witness for C6 on the two-page graph `1 ↔ 2` at damping `17/20`. -/
theorem claim_C6_witness :
    ∃ dist, transition_model [("1", ["2"]), ("2", ["1"])] "1" (17/20) = Except.ok dist ∧
      dist.map Prod.fst =
        ([("1", ["2"]), ("2", ["1"])] : List (String × List String)).map Prod.fst ∧
      (dist.map Prod.snd).sum = 1 :=
  claim_C6_transition_sums_to_one [("1", ["2"]), ("2", ["1"])] "1" (17/20)
    (by decide) (by decide) (by decide) (by norm_num) (by norm_num)

/-! ### Claims about the Sampling Estimator's draw and degenerate cases (C1, C5, C8) -/

/-- C1: the code draws the next page with `random.choices(list(distribution.keys()),
list(distribution.values()), k=1)`, i.e. with the running-average values as
weights, while the claim (and the function's own docstring and comment)
says the weights are the just-computed transition-model distribution.  On
the 3-cycle `1→2→3→1` with damping `1/2`, `n = 4` samples, initial page
`"1"` and every uniform draw equal to `1/2`, the code (first conjunct) and
the claim's description (second conjunct) return different mappings
(third conjunct), so the code does not implement the claimed draw. -/
theorem claim_C1_draw_divergence :
    sample_pagerank [("1", ["2"]), ("2", ["3"]), ("3", ["1"])] (1/2) 4 0 (fun _ => 1/2) =
      Except.ok [("1", 1/6), ("2", 1/3), ("3", 1/2)] ∧
    sample_pagerank_claimdraw [("1", ["2"]), ("2", ["3"]), ("3", ["1"])] (1/2) 4 0
        (fun _ => 1/2) =
      Except.ok [("1", 1/3), ("2", 1/3), ("3", 1/3)] ∧
    ([("1", (1/6 : ℚ)), ("2", 1/3), ("3", 1/2)] : List (String × ℚ)) ≠
      [("1", 1/3), ("2", 1/3), ("3", 1/3)] := by
  refine ⟨?_, ?_, ?_⟩
  · norm_num [sample_pagerank, sampleLoop, sampleStep, transition_model, addLinks,
      alAdd, alLookup, pyChoices1, pyAccumulate, lastQ, List.range',
      List.countP_cons, List.countP_nil,
      (by decide : ¬("1" : String) = "2"), (by decide : ¬("1" : String) = "3"),
      (by decide : ¬("2" : String) = "1"), (by decide : ¬("2" : String) = "3"),
      (by decide : ¬("3" : String) = "1"), (by decide : ¬("3" : String) = "2")]
  · norm_num [sample_pagerank_claimdraw, sampleLoopClaim, sampleStepClaim,
      transition_model, addLinks, alAdd, alLookup, pyChoices1, pyAccumulate, lastQ,
      List.range', List.countP_cons, List.countP_nil,
      (by decide : ¬("1" : String) = "2"), (by decide : ¬("1" : String) = "3"),
      (by decide : ¬("2" : String) = "1"), (by decide : ¬("2" : String) = "3"),
      (by decide : ¬("3" : String) = "1"), (by decide : ¬("3" : String) = "2")]
  · norm_num

/-- C5 counterexample: `sample_pagerank` with `sample_count = 0 < 1` does
not fail with any error: the loop `for i in range(1, n)` simply never
runs and the all-zero mapping is returned. -/
theorem claim_C5_counterexample :
    sample_pagerank [("a", ["b"]), ("b", ["a"])] (17/20) 0 0 (fun _ => 0) =
      Except.ok [("a", 0), ("b", 0)] := rfl

/-- C5 amended: `transition_model` on an empty graph, and on a page absent
from the graph, fails with the key-lookup error (the spec's `UnknownPage`;
the code has no separate `InvalidInput` validation — both cases raise the
same KeyError from `corpus[page]`), and this happens before any
distribution is built; `sample_pagerank` with `sample_count < 1` does not
fail: it returns the mapping with every page at 0. -/
theorem claim_C5_amended :
    (∀ (page : String) (d : ℚ),
      transition_model [] page d = Except.error PyErr.keyError) ∧
    (∀ (corpus : List (String × List String)) (page : String) (d : ℚ),
      page ∉ corpus.map Prod.fst →
      transition_model corpus page d = Except.error PyErr.keyError) ∧
    (∀ (corpus : List (String × List String)) (d : ℚ) (n : ℤ) (init : ℕ) (rands : ℕ → ℚ),
      corpus ≠ [] → n < 1 →
      sample_pagerank corpus d n init rands =
        Except.ok (corpus.map (fun pr => (pr.1, (0 : ℚ))))) := by
  refine ⟨fun page d => rfl, ?_, ?_⟩
  · intro corpus page d h
    have h0 : alLookup corpus page = none := (alLookup_eq_none corpus page).mpr h
    simp [transition_model, h0]
  · intro corpus d n init rands hne hn
    have hlen : 0 < corpus.length := List.length_pos.mpr hne
    have hmod : init % corpus.length < (corpus.map Prod.fst).length := by
      rw [List.length_map]; exact Nat.mod_lt _ hlen
    have htoNat : (n - 1).toNat = 0 := Int.toNat_of_nonpos (by omega)
    unfold sample_pagerank
    rw [htoNat, List.get?_eq_get hmod]
    rfl

/-- Witness for the amended C5: the two `transition_model` failures and
the `sample_count = 0` run on small concrete inputs. -/
theorem claim_C5_witness :
    transition_model [] "x" (1/2) = Except.error PyErr.keyError ∧
    transition_model [("a", ["a"])] "zz" (1/2) = Except.error PyErr.keyError ∧
    sample_pagerank [("a", ["b"]), ("b", ["a"])] (17/20) 0 3 (fun _ => 1/7) =
      Except.ok [("a", 0), ("b", 0)] :=
  ⟨claim_C5_amended.1 "x" (1/2),
   claim_C5_amended.2.1 [("a", ["a"])] "zz" (1/2) (by decide),
   claim_C5_amended.2.2 [("a", ["b"]), ("b", ["a"])] (17/20) 0 3 (fun _ => 1/7)
     (by decide) (by decide)⟩

/-- C8: with `sample_count = 1` the code returns every page at mass 0 —
`for i in range(1, 1)` performs no iterations and the initial random
choice is never counted into the running average — contradicting the
claim (and the docstring's "All PageRank values should sum to 1") that
exactly one page ends with mass 1. -/
theorem claim_C8_single_sample_all_zero :
    sample_pagerank [("1", ["2"]), ("2", ["1"])] (17/20) 1 0 (fun _ => 0) =
      Except.ok [("1", 0), ("2", 0)] := rfl

/-! ### The Iterative Estimator's round formula (C3) -/

theorem foldl_if_filter (key : String) (g : String × List String → ℚ)
    (l : List (String × List String)) :
    ∀ s : ℚ, l.foldl (fun s pr => if key ∈ pr.2 then s + g pr else s) s =
      s + ((l.filter (fun pr => key ∈ pr.2)).map g).sum := by
  induction l with
  | nil => intro s; simp
  | cons p t ih =>
    intro s
    cases hd : decide (key ∈ p.2) with
    | true =>
      have h : key ∈ p.2 := of_decide_eq_true hd
      rw [List.foldl_cons, List.filter_cons, hd, if_pos h, ih]
      simp only [if_true, List.map_cons, List.sum_cons]
      ring
    | false =>
      have h : ¬ key ∈ p.2 := of_decide_eq_false hd
      rw [List.foldl_cons, List.filter_cons, hd, if_neg h, ih]
      simp

theorem sigmaFold_eq_sum (corpus : List (String × List String))
    (ranks : List (String × ℚ)) (key : String) :
    sigmaFold corpus ranks key =
      ((corpus.filter (fun pr => key ∈ pr.2)).map
        (fun pr => (alLookup ranks pr.1).getD 0 / (pr.2.length : ℚ))).sum := by
  have := foldl_if_filter key
    (fun pr => (alLookup ranks pr.1).getD 0 / (pr.2.length : ℚ)) corpus 0
  simpa [sigmaFold] using this

theorem iterRoundGo_fst_spec (corpus : List (String × List String)) (d : ℚ) :
    ∀ (rest : List (String × List String)) (ranks : List (String × ℚ)) (count : ℕ),
      (iterRoundGo corpus d (corpus.length : ℚ) rest ranks count).1 =
        specRoundGo corpus d rest ranks := by
  intro rest
  induction rest with
  | nil => intro ranks count; rfl
  | cons p t ih =>
    intro ranks count
    have hnew : (1 - d) / (corpus.length : ℚ) + d * sigmaFold corpus ranks p.1 =
        specNewRank corpus d ranks p.1 := by
      rw [specNewRank, sigmaFold_eq_sum]
    simp only [iterRoundGo, specRoundGo, hnew]
    exact ih _ _

/-- C3: every round of the Iterative Estimator visits the page keys in
iteration order and sets each rank, in place, to
`(1-damping)/N + damping * Σ over pages p with key ∈ links(p) of rank[p]/outdegree(p)`
— the sum taken over the current, partially-updated ranks, so later pages
of a round read already-updated earlier ranks, and pages with zero
outdegree contribute nothing (`specRound` spells out exactly this
spec-side description, and the code's round equals it). -/
theorem claim_C3_round_is_spec_formula (corpus : List (String × List String)) (d : ℚ)
    (ranks : List (String × ℚ)) :
    (iterRound corpus d ranks).1 = specRound corpus d ranks :=
  iterRoundGo_fst_spec corpus d corpus ranks 0

/-! ### Lower bound of the Iterative Estimator's output (C10) -/

theorem alLookup_snd_mem {l : List (String × ℚ)} {k : String} {v : ℚ}
    (h : alLookup l k = some v) : v ∈ l.map Prod.snd :=
  List.mem_map.mpr ⟨(k, v), alLookup_pair_mem h, rfl⟩

theorem sigmaFold_nonneg (corpus : List (String × List String))
    (ranks : List (String × ℚ)) (key : String)
    (h : ∀ v ∈ ranks.map Prod.snd, 0 ≤ v) :
    0 ≤ sigmaFold corpus ranks key := by
  rw [sigmaFold_eq_sum]
  apply List.sum_nonneg
  intro x hx
  rcases List.mem_map.mp hx with ⟨pr, _, rfl⟩
  apply div_nonneg
  · cases hlook : alLookup ranks pr.1 with
    | none => simp
    | some v => simpa using h v (alLookup_snd_mem hlook)
  · exact_mod_cast Nat.zero_le _

theorem alSet_snd_mem {l : List (String × ℚ)} {k : String} {x v : ℚ}
    (h : v ∈ (alSet l k x).map Prod.snd) : v = x ∨ v ∈ l.map Prod.snd := by
  induction l with
  | nil => simpa [alSet] using h
  | cons p t ih =>
    by_cases hk : p.1 = k
    · simp only [alSet, if_pos hk, List.map_cons, List.mem_cons] at h
      rcases h with h | h
      · exact Or.inl h
      · exact Or.inr (by simp [h])
    · simp only [alSet, if_neg hk, List.map_cons, List.mem_cons] at h
      rcases h with h | h
      · exact Or.inr (by simp [h])
      · rcases ih h with h2 | h2
        · exact Or.inl h2
        · exact Or.inr (by simp [h2])

theorem iterRoundGo_values_ge (corpus : List (String × List String)) (d : ℚ)
    (hd : 0 ≤ d) (hq : 0 ≤ (1 - d) / (corpus.length : ℚ)) :
    ∀ (rest : List (String × List String)) (ranks : List (String × ℚ)) (count : ℕ),
      (∀ v ∈ ranks.map Prod.snd, (1 - d) / (corpus.length : ℚ) ≤ v) →
      ∀ v ∈ ((iterRoundGo corpus d (corpus.length : ℚ) rest ranks count).1).map Prod.snd,
        (1 - d) / (corpus.length : ℚ) ≤ v := by
  intro rest
  induction rest with
  | nil => intro ranks count h; exact h
  | cons p t ih =>
    intro ranks count h
    simp only [iterRoundGo]
    apply ih
    intro v hv
    rcases alSet_snd_mem hv with rfl | hv2
    · have hs : 0 ≤ sigmaFold corpus ranks p.1 :=
        sigmaFold_nonneg _ _ _ (fun w hw => le_trans hq (h w hw))
      have := mul_nonneg hd hs
      linarith
    · exact h v hv2

theorem iterLoop_values_ge (corpus : List (String × List String)) (d : ℚ)
    (hd : 0 ≤ d) (hq : 0 ≤ (1 - d) / (corpus.length : ℚ)) :
    ∀ (fuel : ℕ) (ranks res : List (String × ℚ)),
      (∀ v ∈ ranks.map Prod.snd, (1 - d) / (corpus.length : ℚ) ≤ v) →
      iterLoop corpus d fuel ranks = some res →
      ∀ v ∈ res.map Prod.snd, (1 - d) / (corpus.length : ℚ) ≤ v := by
  intro fuel
  induction fuel with
  | zero => intro ranks res _ h; simp [iterLoop] at h
  | succ fuel ih =>
    intro ranks res hranks h
    have hround := iterRoundGo_values_ge corpus d hd hq corpus ranks 0 hranks
    simp only [iterLoop] at h
    by_cases hc : (iterRound corpus d ranks).2 = corpus.length
    · rw [if_pos hc] at h
      cases h
      exact hround
    · rw [if_neg hc] at h
      exact ih _ _ hround h

/-- C10: for every non-empty graph and damping in `[0,1)`, every value in
the mapping returned by `iterate_pagerank` is at least `(1-damping)/N`:
each returned value was assigned in the final round as
`(1-damping)/N + damping * sigma` with `sigma ≥ 0`, so for damping < 1 no
page — even one with no incoming links — ends with rank 0. -/
theorem claim_C10_lower_bound (corpus : List (String × List String)) (d : ℚ)
    (fuel : ℕ) (res : List (String × ℚ))
    (hd0 : 0 ≤ d) (hd1 : d < 1) (hne : corpus ≠ [])
    (h : iterate_pagerank corpus d fuel = some res) :
    ∀ pr ∈ res, (1 - d) / (corpus.length : ℚ) ≤ pr.2 := by
  have hNpos : (0 : ℚ) < (corpus.length : ℚ) := by
    exact_mod_cast List.length_pos.mpr hne
  have hq : 0 ≤ (1 - d) / (corpus.length : ℚ) :=
    div_nonneg (by linarith) hNpos.le
  have hinit : ∀ v ∈ (initRanks corpus).map Prod.snd,
      (1 - d) / (corpus.length : ℚ) ≤ v := by
    intro v hv
    rcases List.mem_map.mp hv with ⟨x, hx, rfl⟩
    rcases List.mem_map.mp hx with ⟨pr0, _, rfl⟩
    show (1 - d) / (corpus.length : ℚ) ≤ 1 / (corpus.length : ℚ)
    exact (div_le_div_right hNpos).mpr (by linarith)
  intro pr hpr
  exact iterLoop_values_ge corpus d hd0 hq fuel (initRanks corpus) res hinit h pr.2
    (List.mem_map_of_mem Prod.snd hpr)

/-- Witness for C10 on the two-page cycle at damping `1/2`, which
converges in the very first round: page `"1"` of the returned mapping has
rank `1/2`, at least `(1 - 1/2)/2`. -/
theorem claim_C10_witness :
    (1 - 1/2) / ((([("1", ["2"]), ("2", ["1"])] : List (String × List String)).length : ℚ))
      ≤ (1/2 : ℚ) :=
  claim_C10_lower_bound [("1", ["2"]), ("2", ["1"])] (1/2) 1 [("1", 1/2), ("2", 1/2)]
    (by norm_num) (by norm_num) (by decide)
    (by norm_num [iterate_pagerank, iterLoop, iterRound, iterRoundGo, initRanks,
      sigmaFold, alSet, alLookup, threshold,
      (by decide : ¬("1" : String) = "2"), (by decide : ¬("2" : String) = "1")])
    ("1", 1/2) (List.mem_cons_self _ _)

/-! ### Termination shape of the Iterative Estimator (C4) -/

theorem roundDeltasGo_length (corpus : List (String × List String)) (d N : ℚ) :
    ∀ (rest : List (String × List String)) (ranks : List (String × ℚ)),
      (roundDeltasGo corpus d N rest ranks).length = rest.length := by
  intro rest
  induction rest with
  | nil => intro ranks; rfl
  | cons p t ih => intro ranks; simp only [roundDeltasGo, List.length_cons, ih]

theorem iterRoundGo_snd_countP (corpus : List (String × List String)) (d N : ℚ) :
    ∀ (rest : List (String × List String)) (ranks : List (String × ℚ)) (count : ℕ),
      (iterRoundGo corpus d N rest ranks count).2 =
        count + (roundDeltasGo corpus d N rest ranks).countP
          (fun del => decide (del < threshold)) := by
  intro rest
  induction rest with
  | nil => intro ranks count; simp [iterRoundGo, roundDeltasGo]
  | cons p t ih =>
    intro ranks count
    simp only [iterRoundGo, roundDeltasGo, List.countP_cons, ih, decide_eq_true_eq]
    by_cases h : |(alLookup ranks p.1).getD 0 -
        ((1 - d) / N + d * sigmaFold corpus ranks p.1)| < threshold
    · rw [if_pos h, if_pos h]
      omega
    · rw [if_neg h, if_neg h]
      omega

theorem iterRound_converged_iff (corpus : List (String × List String)) (d : ℚ)
    (ranks : List (String × ℚ)) :
    (iterRound corpus d ranks).2 = corpus.length ↔
      ∀ del ∈ roundDeltas corpus d ranks, del < threshold := by
  have hlen : (roundDeltasGo corpus d (corpus.length : ℚ) corpus ranks).length =
      corpus.length := roundDeltasGo_length corpus d _ corpus ranks
  rw [iterRound, iterRoundGo_snd_countP, Nat.zero_add, roundDeltas]
  set dl := roundDeltasGo corpus d (corpus.length : ℚ) corpus ranks with hdl
  rw [← hlen, List.countP_eq_length]
  simp only [decide_eq_true_eq]

theorem roundState_shift (corpus : List (String × List String)) (d : ℚ)
    (r0 : List (String × ℚ)) :
    ∀ j : ℕ, roundState corpus d ((iterRound corpus d r0).1) j =
      roundState corpus d r0 (j + 1) := by
  intro j
  induction j with
  | zero => rfl
  | succ j ih => simp only [roundState, ih]

theorem iterLoop_some_iff (corpus : List (String × List String)) (d : ℚ) :
    ∀ (fuel : ℕ) (r0 res : List (String × ℚ)),
      iterLoop corpus d fuel r0 = some res ↔
        ∃ k : ℕ, k < fuel ∧
          (iterRound corpus d (roundState corpus d r0 k)).2 = corpus.length ∧
          (∀ j < k, (iterRound corpus d (roundState corpus d r0 j)).2 ≠ corpus.length) ∧
          res = roundState corpus d r0 (k + 1) := by
  intro fuel
  induction fuel with
  | zero =>
    intro r0 res
    simp [iterLoop]
  | succ fuel ih =>
    intro r0 res
    simp only [iterLoop]
    by_cases hc : (iterRound corpus d r0).2 = corpus.length
    · rw [if_pos hc]
      constructor
      · intro h
        exact ⟨0, Nat.succ_pos _, hc,
          fun j hj => absurd hj (Nat.not_lt_zero j), (Option.some.inj h).symm⟩
      · rintro ⟨k, hk, hck, hnot, hres⟩
        have hk0 : k = 0 := by
          by_contra hne0
          exact hnot 0 (Nat.pos_of_ne_zero hne0) hc
        subst hk0
        rw [hres]
        rfl
    · rw [if_neg hc, ih]
      constructor
      · rintro ⟨k, hk, hck, hnot, hres⟩
        refine ⟨k + 1, by omega, ?_, ?_, ?_⟩
        · rwa [roundState_shift] at hck
        · intro j hj
          cases j with
          | zero => exact hc
          | succ j =>
            have hj2 := hnot j (by omega)
            rwa [roundState_shift] at hj2
        · rw [hres, roundState_shift]
      · rintro ⟨k, hk, hck, hnot, hres⟩
        cases k with
        | zero => exact absurd hck hc
        | succ k =>
          refine ⟨k, by omega, ?_, ?_, ?_⟩
          · rw [roundState_shift]; exact hck
          · intro j hj
            rw [roundState_shift]
            exact hnot (j + 1) (by omega)
          · rw [hres, roundState_shift]

/-- C4: the Iterative Estimator returns exactly after the first round in
which every page's rank changed by less than the threshold `0.0005` (it
never returns while some page's change in the most recent round was
`≥ 0.0005`), and the returned mapping is the ranks as of that round, with
no final re-normalization applied (`fuel` only bounds how many rounds the
embedding may run; the equivalence holds for every bound). -/
theorem claim_C4_returns_at_first_converged_round
    (corpus : List (String × List String)) (d : ℚ) (fuel : ℕ)
    (res : List (String × ℚ)) :
    iterate_pagerank corpus d fuel = some res ↔
      ∃ k : ℕ, k < fuel ∧
        (∀ del ∈ roundDeltas corpus d (roundState corpus d (initRanks corpus) k),
          del < threshold) ∧
        (∀ j < k, ¬ ∀ del ∈ roundDeltas corpus d (roundState corpus d (initRanks corpus) j),
          del < threshold) ∧
        res = roundState corpus d (initRanks corpus) (k + 1) := by
  rw [iterate_pagerank, iterLoop_some_iff]
  constructor
  · rintro ⟨k, hk, hck, hnot, hres⟩
    refine ⟨k, hk, (iterRound_converged_iff _ _ _).mp hck, ?_, hres⟩
    intro j hj hall
    exact hnot j hj ((iterRound_converged_iff _ _ _).mpr hall)
  · rintro ⟨k, hk, hck, hnot, hres⟩
    refine ⟨k, hk, (iterRound_converged_iff _ _ _).mpr hck, ?_, hres⟩
    intro j hj hc2
    exact hnot j hj ((iterRound_converged_iff _ _ _).mp hc2)

/-! ### The Sampling Estimator's running average (C7) -/

theorem transition_ok_props {corpus : List (String × List String)} {page : String}
    {d : ℚ} {cur : List (String × ℚ)} (hwf : WFCorpus corpus) (hne : corpus ≠ [])
    (h : transition_model corpus page d = Except.ok cur) :
    cur.map Prod.fst = corpus.map Prod.fst ∧ (cur.map Prod.snd).sum = 1 := by
  cases hL : alLookup corpus page with
  | none =>
    rw [transition_model, hL] at h
    exact absurd h (by simp)
  | some L =>
    rcases transition_model_ok d hwf hL with ⟨dist, h1, h2, _, h4⟩
    rw [h1] at h
    have hde : dist = cur := Except.ok.inj h
    subst hde
    exact ⟨h2, h4 hne⟩

theorem map_update_eq_zipWith (c q : ℚ) :
    ∀ (a b : List (String × ℚ)), a.map Prod.fst = b.map Prod.fst →
      (a.map Prod.fst).Nodup →
      a.map (fun pr => (pr.1, (c * pr.2 + (alLookup b pr.1).getD 0) / q)) =
        List.zipWith (fun x y => (x.1, (c * x.2 + y.2) / q)) a b := by
  intro a
  induction a with
  | nil =>
    intro b h _
    have hb : b = [] := by
      cases b with
      | nil => rfl
      | cons y t => simp at h
    subst hb
    rfl
  | cons x a2 ih =>
    intro b h hnd
    cases b with
    | nil => simp at h
    | cons y b2 =>
      simp only [List.map_cons, List.cons.injEq] at h
      obtain ⟨hxy, hrest⟩ := h
      have hlook : alLookup (y :: b2) x.1 = some y.2 := by
        simp [alLookup, hxy.symm]
      have hxnot : x.1 ∉ a2.map Prod.fst := by
        have := hnd
        simp only [List.map_cons, List.nodup_cons] at this
        exact this.1
      have htail : a2.map (fun pr => (pr.1, (c * pr.2 + (alLookup (y :: b2) pr.1).getD 0) / q)) =
          a2.map (fun pr => (pr.1, (c * pr.2 + (alLookup b2 pr.1).getD 0) / q)) := by
        apply List.map_congr_left
        intro pr hpr
        have hne2 : y.1 ≠ pr.1 := by
          rw [← hxy]
          intro hcontra
          exact hxnot (hcontra ▸ List.mem_map_of_mem Prod.fst hpr)
        simp [alLookup, hne2]
      simp only [List.map_cons, List.zipWith_cons_cons, hlook, htail, Option.getD_some]
      congr 1
      apply ih b2 hrest
      simp only [List.map_cons, List.nodup_cons] at hnd
      exact hnd.2

theorem sum_zipWith_update (c q : ℚ) :
    ∀ (a b : List (String × ℚ)), a.length = b.length →
      ((List.zipWith (fun x y => (x.1, (c * x.2 + y.2) / q)) a b).map Prod.snd).sum =
        (c * (a.map Prod.snd).sum + (b.map Prod.snd).sum) / q := by
  intro a
  induction a with
  | nil =>
    intro b h
    have hb : b = [] := List.length_eq_zero.mp h.symm
    subst hb
    simp
  | cons x a2 ih =>
    intro b h
    cases b with
    | nil => simp at h
    | cons y b2 =>
      simp only [List.length_cons, Nat.succ.injEq] at h
      simp only [List.zipWith_cons_cons, List.map_cons, List.sum_cons, ih b2 h]
      rw [div_add_div_same]
      congr 1
      ring

theorem sampleStep_ok_sum {corpus : List (String × List String)} {d : ℚ}
    {rands : ℕ → ℚ} {st st2 : List (String × ℚ) × String} {i : ℕ}
    (hwf : WFCorpus corpus) (hne : corpus ≠ [])
    (hkeys : st.1.map Prod.fst = corpus.map Prod.fst)
    (h : sampleStep corpus d rands st i = Except.ok st2) :
    st2.1.map Prod.fst = corpus.map Prod.fst ∧
    (st2.1.map Prod.snd).sum =
      (((i : ℚ) - 1) * (st.1.map Prod.snd).sum + 1) / (i : ℚ) := by
  unfold sampleStep at h
  split at h
  · exact absurd h (by simp)
  next cur htm =>
    dsimp only at h
    split at h
    · exact absurd h (by simp)
    next page2 hch =>
      obtain ⟨hck, hcs⟩ := transition_ok_props hwf hne htm
      have hst2 : st2 = (st.1.map (fun pr =>
          (pr.1, (((i : ℚ) - 1) * pr.2 + (alLookup cur pr.1).getD 0) / (i : ℚ))), page2) :=
        (Except.ok.inj h).symm
      subst hst2
      have hfst : st.1.map Prod.fst = cur.map Prod.fst := by rw [hkeys, hck]
      have hnd : (st.1.map Prod.fst).Nodup := by rw [hkeys]; exact hwf.1
      have hzip := map_update_eq_zipWith ((i : ℚ) - 1) (i : ℚ) st.1 cur hfst hnd
      constructor
      · show (st.1.map _).map Prod.fst = _
        rw [map_fst_map_pair]
        exact hkeys
      · show ((st.1.map _).map Prod.snd).sum = _
        rw [hzip, sum_zipWith_update _ _ st.1 cur
            (by rw [← List.length_map st.1 Prod.fst, ← List.length_map cur Prod.fst, hfst]),
          hcs]

theorem sampleLoop_ok_sum (corpus : List (String × List String)) (d : ℚ)
    (rands : ℕ → ℚ) (hwf : WFCorpus corpus) (hne : corpus ≠ []) :
    ∀ (k s : ℕ) (st stf : List (String × ℚ) × String), 1 ≤ s →
      st.1.map Prod.fst = corpus.map Prod.fst →
      (2 ≤ s → (st.1.map Prod.snd).sum = 1) →
      sampleLoop corpus d rands (List.range' s k) st = Except.ok stf →
      stf.1.map Prod.fst = corpus.map Prod.fst ∧
      (2 ≤ s + k → (stf.1.map Prod.snd).sum = 1) := by
  intro k
  induction k with
  | zero =>
    intro s st stf hs hkeys hsum h
    have hst : st = stf := Except.ok.inj h
    subst hst
    exact ⟨hkeys, fun h2 => hsum (by omega)⟩
  | succ k ih =>
    intro s st stf hs hkeys hsum h
    have hrange : List.range' s (k + 1) = s :: List.range' (s + 1) k := rfl
    rw [hrange] at h
    unfold sampleLoop at h
    split at h
    · exact absurd h (by simp)
    next st1 hstep =>
      obtain ⟨hk1, hs1⟩ := sampleStep_ok_sum hwf hne hkeys hstep
      have hone : (st1.1.map Prod.snd).sum = 1 := by
        rw [hs1]
        rcases Nat.lt_or_ge s 2 with h2 | h2
        · have hs1e : s = 1 := by omega
          subst hs1e
          norm_num
        · rw [hsum h2]
          have hsne : (s : ℚ) ≠ 0 := Nat.cast_ne_zero.mpr (by omega)
          field_simp
      have hrest := ih (s + 1) st1 stf (by omega) hk1 (fun _ => hone) h
      exact ⟨hrest.1, fun h2 => hrest.2 (by omega)⟩

/-- C7 counterexample: at `sample_count = 1` (which the claim includes via
`sample_count ≥ 1`) the returned mapping is all zeros, whose values sum
to 0 — not approximately 1 (not within the spec's sampling tolerance of
`0.01`) — for every outcome of the random source, since the loop never
runs. -/
theorem claim_C7_counterexample :
    sample_pagerank [("x", ["y"]), ("y", ["x"])] (1/2) 1 5 (fun _ => 1/3) =
      Except.ok [("x", 0), ("y", 0)] ∧
    ((([("x", (0 : ℚ)), ("y", (0 : ℚ))] : List (String × ℚ)).map Prod.snd).sum = 0 ∧
      ¬ |((([("x", (0 : ℚ)), ("y", (0 : ℚ))] : List (String × ℚ)).map Prod.snd).sum - 1)|
        ≤ 1/100) := by
  refine ⟨rfl, by norm_num, by norm_num⟩

/-- C7 amended: for every well-formed non-empty graph, damping in `[0,1)`
and `sample_count ≥ 2`, the mapping returned by `sample_pagerank` has
exactly one entry per graph page and its values sum to exactly 1 (in
exact rational arithmetic), for every outcome of the random source; at
`sample_count = 1` the values instead sum to 0 (see the counterexample). -/
theorem claim_C7_sample_sums_to_one (corpus : List (String × List String)) (d : ℚ)
    (n : ℤ) (init : ℕ) (rands : ℕ → ℚ) (res : List (String × ℚ))
    (hwf : WFCorpus corpus) (hne : corpus ≠ []) (hd0 : 0 ≤ d) (hd1 : d < 1)
    (hn : 2 ≤ n) (h : sample_pagerank corpus d n init rands = Except.ok res) :
    res.map Prod.fst = corpus.map Prod.fst ∧ (res.map Prod.snd).sum = 1 := by
  unfold sample_pagerank at h
  split at h
  · exact absurd h (by simp)
  next page0 hget =>
    dsimp only at h
    split at h
    · exact absurd h (by simp)
    next st hloop =>
      have hres : res = st.1 := (Except.ok.inj h).symm
      subst hres
      have hkeys0 : (corpus.map (fun pr => (pr.1, (0 : ℚ)))).map Prod.fst =
          corpus.map Prod.fst := map_fst_map_pair _ _
      have hmain := sampleLoop_ok_sum corpus d rands hwf hne ((n - 1).toNat) 1
        (corpus.map (fun pr => (pr.1, (0 : ℚ))), page0) st le_rfl hkeys0
        (fun h2 => absurd h2 (by omega)) hloop
      exact ⟨hmain.1, hmain.2 (by omega)⟩

/-- Witness for the amended C7: two pages, damping `1/2`, two samples. -/
theorem claim_C7_witness :
    ([("1", (1/4 : ℚ)), ("2", (3/4 : ℚ))] : List (String × ℚ)).map Prod.fst =
      ([("1", ["2"]), ("2", ["1"])] : List (String × List String)).map Prod.fst ∧
    (([("1", (1/4 : ℚ)), ("2", (3/4 : ℚ))] : List (String × ℚ)).map Prod.snd).sum = 1 :=
  claim_C7_sample_sums_to_one [("1", ["2"]), ("2", ["1"])] (1/2) 2 0 (fun _ => 0)
    [("1", 1/4), ("2", 3/4)] (by decide) (by decide) (by norm_num) (by norm_num)
    (by norm_num)
    (by norm_num [sample_pagerank, sampleLoop, sampleStep, transition_model, addLinks,
      alAdd, alLookup, pyChoices1, pyAccumulate, lastQ, List.range',
      List.countP_cons, List.countP_nil,
      (by decide : ¬("1" : String) = "2"), (by decide : ¬("2" : String) = "1")])

end PageRank
